import Mathlib

/-!
Shallow embedding of the `migra` SQL migration manager (package `migra`,
file `migra.go`), for checking its natural-language specification.

The Go code drives a SQL database.  We embed it as a state machine:

* the migration ledger table (`<schema>.<table>` with columns
  `id, name, description, up, down, position, migrated_at`) is a list of
  `Migration` records together with the next values of the two `SERIAL`
  sequences (`id` and `position`);
* the target database that `Up`/`Down` statements act on is an abstract
  state of type `δ`;
* every SQL interaction that can fail is routed through an `SQLOracle`:
  executing an arbitrary statement is a `δ → String → Option δ` function
  (`none` = execution error), and each of the ledger-table operations the
  driver can refuse (begin, insert, update, delete, commit, and the
  duplicate-name pre-check `SELECT` in `Push`) carries a success flag.
  Ledger reads themselves (`ORDER BY position DESC` row fetch) are
  computed from the embedded row list.

A Go method that returns `error` and mutates the database becomes a Lean
function `State → Except MErr Unit × State`; returning `.error e` pairs
with the *unchanged* pre-state exactly when the Go transaction rolled
back (deferred `tx.Rollback()`).
-/

/-- A row of the `Migration` struct: both the caller-supplied migration
(`ID`, `Position`, `MigratedAt` ignored on input) and a ledger row
(`Position` assigned by the store, `MigratedAt` set on success). -/
structure Migration where
  ID : Nat
  Name : String
  Description : String
  Up : String
  Down : String
  Position : Nat
  MigratedAt : Option Nat
deriving DecidableEq, Repr

/-- Ledger table plus target database: the rows of the migrations table,
the next `id` and `position` sequence values, and the abstract state of
the database the `Up`/`Down` statements run against. -/
structure DBState (δ : Type) where
  rows : List Migration
  nextId : Nat
  nextPos : Nat
  target : δ
deriving DecidableEq, Repr

/-- Errors returned by the engine.  `validationName`/`validationUp` are the
two `errors.New` validation errors of `Push`; `noMigration` is
`ErrNoMigration`; `errNoRows` is the driver's `sql.ErrNoRows` surfaced
unmapped; the remaining constructors stand for driver errors of the
individual fallible SQL steps. -/
inductive MErr where
  | validationName
  | validationUp
  | noMigration
  | errNoRows
  | beginFailed
  | commitFailed
  | insertFailed
  | updateFailed
  | deleteFailed
  | execFailed (stmt : String)
deriving DecidableEq, Repr

/-- Fault model for the SQL driver: `exec` runs an arbitrary SQL statement
against the target database (`none` = error), and each Bool says whether
the corresponding ledger-table statement succeeds.  `selectNameOk` is the
duplicate-name pre-check `SELECT` of `Push`, whose scan error the Go code
discards. -/
structure SQLOracle (δ : Type) where
  exec : δ → String → Option δ
  selectNameOk : Bool
  beginOk : Bool
  insertOk : Bool
  updateOk : Bool
  deleteOk : Bool
  commitOk : Bool

/-- `DefaultMigrationTable` constant. -/
def DefaultMigrationTable : String := "_migrations"

/-- `DefaultSchemaName` constant. -/
def DefaultSchemaName : String := "public"

/-- The configuration part of the `Migra` struct (the `*sql.DB` handle is
the oracle/state above). -/
structure Migra where
  tableName : String
  schemaName : String
deriving DecidableEq, Repr

/-- `New` — fresh instance with the default table and schema names. -/
def New : Migra :=
  { tableName := DefaultMigrationTable, schemaName := DefaultSchemaName }

/-- `MigrationTable` — fully qualified, schema prefixed table name. -/
def MigrationTable (m : Migra) : String :=
  m.schemaName ++ "." ++ m.tableName

/-- `SetMigrationTable` — sets the table name when non-empty, returns the
instance. -/
def SetMigrationTable (m : Migra) (table : String) : Migra :=
  if table ≠ "" then { m with tableName := table } else m

/-- `SetSchema` — sets the schema name when non-empty, returns the
instance. -/
def SetSchema (m : Migra) (schema : String) : Migra :=
  if schema ≠ "" then { m with schemaName := schema } else m

/-- The row freshly inserted by `Push`'s `INSERT INTO ... (name,
description, up, down)`: `id` and `position` come from the `SERIAL`
sequences, `migrated_at` is still NULL. -/
def mkPendingRow (s : DBState δ) (mig : Migration) : Migration :=
  { ID := s.nextId, Name := mig.Name, Description := mig.Description,
    Up := mig.Up, Down := mig.Down, Position := s.nextPos, MigratedAt := none }

/-- Effect of `UPDATE ... SET migrated_at = NOW() WHERE name = $1`. -/
def markMigrated (now : Nat) (n : String) (rows : List Migration) : List Migration :=
  rows.map fun r => if r.Name = n then { r with MigratedAt := some now } else r

/-- The transactional body of `Push`: `BeginTx`, insert the pending row
(the ledger's UNIQUE `name` column makes a duplicate insert fail),
execute the `Up` statement, set `migrated_at = NOW()`, `Commit`; any
failure returns that step's error with the state unchanged (deferred
rollback). -/
def pushTx (o : SQLOracle δ) (now : Nat) (s : DBState δ) (mig : Migration) :
    Except MErr Unit × DBState δ :=
  if !o.beginOk then (.error .beginFailed, s)
  else if !o.insertOk || s.rows.any (fun r => r.Name == mig.Name) then
    (.error .insertFailed, s)
  else
    match o.exec s.target mig.Up with
    | none => (.error (.execFailed mig.Up), s)
    | some t =>
      if !o.updateOk then (.error .updateFailed, s)
      else if !o.commitOk then (.error .commitFailed, s)
      else (.ok (), { rows := markMigrated now mig.Name (s.rows ++ [mkPendingRow s mig]),
                      nextId := s.nextId + 1, nextPos := s.nextPos + 1, target := t })

/-- `Push` — validate `Name` and `Up`, run the duplicate-name pre-check
(`SELECT name FROM ... WHERE name = $1`; its `row.Scan(&name)` error is
discarded, so `name` stays `""` when the query fails or finds no row),
return success if already pushed, otherwise run the transaction. -/
def Push (o : SQLOracle δ) (now : Nat) (s : DBState δ) (mig : Migration) :
    Except MErr Unit × DBState δ :=
  if mig.Name = "" then (.error .validationName, s)
  else if mig.Up = "" then (.error .validationUp, s)
  else
    let scanned : String :=
      if o.selectNameOk && s.rows.any (fun r => r.Name == mig.Name) then mig.Name else ""
    if scanned = mig.Name then (.ok (), s)
    else pushTx o now s mig

/-- `PushMany` — push each migration in order, returning the first error
encountered. -/
def PushMany (o : SQLOracle δ) (now : Nat) :
    DBState δ → List Migration → Option MErr × DBState δ
  | s, [] => (none, s)
  | s, mig :: rest =>
    match Push o now s mig with
    | (.ok _, s1) => PushMany o now s1 rest
    | (.error e, s1) => (some e, s1)

/-- The row `SELECT ... ORDER BY position DESC` scanned by `QueryRow`:
the row of maximum `Position`, `none` on an empty table. -/
def latestRow : List Migration → Option Migration
  | [] => none
  | r :: rs =>
    match latestRow rs with
    | none => some r
    | some q => if q.Position > r.Position then some q else some r

/-- `Pop` — in one transaction: fetch the row of greatest `position`
(`sql.ErrNoRows` is mapped to `ErrNoMigration`), execute its `Down`
statement, `DELETE ... WHERE name = $1`, commit; any failure returns the
error with the state unchanged (deferred rollback). -/
def Pop (o : SQLOracle δ) (s : DBState δ) : Except MErr Unit × DBState δ :=
  if !o.beginOk then (.error .beginFailed, s)
  else
    match latestRow s.rows with
    | none => (.error .noMigration, s)
    | some r =>
      match o.exec s.target r.Down with
      | none => (.error (.execFailed r.Down), s)
      | some t =>
        if !o.deleteOk then (.error .deleteFailed, s)
        else if !o.commitOk then (.error .commitFailed, s)
        else (.ok (), { s with rows := s.rows.filter (fun x => x.Name != r.Name),
                               target := t })

/-- `Latest` — fetch the row of greatest `position`; on an empty table the
scan's `sql.ErrNoRows` is returned unmapped. -/
def Latest (s : DBState δ) : Except MErr Migration :=
  match latestRow s.rows with
  | none => .error .errNoRows
  | some r => .ok r

theorem latestRow_eq_none {l : List Migration} :
    latestRow l = none ↔ l = [] := by
  cases l with
  | nil => simp [latestRow]
  | cons a as =>
    constructor
    · intro h
      cases hl : latestRow as with
      | none => simp only [latestRow, hl] at h; simp at h
      | some q =>
        simp only [latestRow, hl] at h
        by_cases hq : q.Position > a.Position
        · rw [if_pos hq] at h; simp at h
        · rw [if_neg hq] at h; simp at h
    · intro h; exact absurd h (by simp)

theorem latestRow_mem {l : List Migration} {r : Migration}
    (h : latestRow l = some r) : r ∈ l := by
  induction l with
  | nil => simp [latestRow] at h
  | cons a as ih =>
    cases hl : latestRow as with
    | none =>
      simp only [latestRow, hl] at h
      simp at h; simp [h]
    | some q =>
      simp only [latestRow, hl] at h
      by_cases hq : q.Position > a.Position
      · rw [if_pos hq] at h
        simp at h
        exact List.mem_cons_of_mem a (ih (h ▸ hl))
      · rw [if_neg hq] at h
        simp at h
        simp [h]

theorem latestRow_max {l : List Migration} {r : Migration}
    (h : latestRow l = some r) : ∀ x ∈ l, x.Position ≤ r.Position := by
  induction l generalizing r with
  | nil => simp [latestRow] at h
  | cons a as ih =>
    intro x hx
    cases hl : latestRow as with
    | none =>
      simp only [latestRow, hl] at h
      simp at h
      have has : as = [] := latestRow_eq_none.mp hl
      subst has
      simp at hx
      simp [hx, h]
    | some q =>
      simp only [latestRow, hl] at h
      by_cases hq : q.Position > a.Position
      · rw [if_pos hq] at h
        simp at h
        subst h
        rcases List.mem_cons.mp hx with hxa | hxas
        · exact hxa ▸ le_of_lt hq
        · exact ih hl x hxas
      · rw [if_neg hq] at h
        simp at h
        subst h
        rcases List.mem_cons.mp hx with hxa | hxas
        · exact hxa ▸ le_refl _
        · exact le_trans (ih hl x hxas) (le_of_not_gt hq)

theorem filter_length_lt {l : List Migration} {p : Migration → Bool}
    {x : Migration} (hx : x ∈ l) (hp : p x = false) :
    (l.filter p).length < l.length := by
  induction l with
  | nil => simp at hx
  | cons a as ih =>
    rcases List.mem_cons.mp hx with hxa | hxas
    · subst hxa
      rw [List.filter_cons, hp]
      exact Nat.lt_succ_of_le (List.length_filter_le p as)
    · rw [List.filter_cons]
      cases hpa : p a with
      | true => simpa using Nat.succ_lt_succ (ih hxas)
      | false => simpa using Nat.lt_succ_of_lt (ih hxas)

theorem pop_ok {o : SQLOracle δ} {s s1 : DBState δ} {u : Unit}
    (h : Pop o s = (.ok u, s1)) :
    ∃ r t, latestRow s.rows = some r ∧ o.exec s.target r.Down = some t ∧
      s1 = { s with rows := s.rows.filter (fun x => x.Name != r.Name), target := t } := by
  unfold Pop at h
  split at h
  · simp at h
  · split at h
    · simp at h
    · next r hr =>
      split at h
      · simp at h
      · next t ht =>
        split at h
        · simp at h
        · split at h
          · simp at h
          · simp at h
            exact ⟨r, t, hr, ht, h.symm⟩

theorem pop_ok_length {o : SQLOracle δ} {s s1 : DBState δ} {u : Unit}
    (h : Pop o s = (.ok u, s1)) : s1.rows.length < s.rows.length := by
  obtain ⟨r, t, hr, _, hs1⟩ := pop_ok h
  subst hs1
  exact filter_length_lt (latestRow_mem hr) (by simp)

theorem pop_error_state {o : SQLOracle δ} {s s1 : DBState δ} {e : MErr}
    (h : Pop o s = (.error e, s1)) : s1 = s := by
  unfold Pop at h
  split at h
  · exact (Prod.mk.injEq _ _ _ _ ▸ h).2.symm
  · split at h
    · exact (Prod.mk.injEq _ _ _ _ ▸ h).2.symm
    · split at h
      · exact (Prod.mk.injEq _ _ _ _ ▸ h).2.symm
      · split at h
        · exact (Prod.mk.injEq _ _ _ _ ▸ h).2.symm
        · split at h
          · exact (Prod.mk.injEq _ _ _ _ ▸ h).2.symm
          · simp at h

/-- `PopAll`'s loop body: `Pop` until it fails; `ErrNoMigration` on the
very first iteration propagates, otherwise it terminates the loop with
the count of successful pops; any other error is returned with the
count. -/
def popLoop (o : SQLOracle δ) (s : DBState δ) (n : Nat) :
    (Nat × Option MErr) × DBState δ :=
  match h : Pop o s with
  | (.ok _, s1) => popLoop o s1 (n + 1)
  | (.error MErr.noMigration, s1) =>
    if n = 0 then ((0, some .noMigration), s1) else ((n, none), s1)
  | (.error e, s1) => ((n, some e), s1)
termination_by s.rows.length
decreasing_by exact pop_ok_length h

/-- `PopAll` — revert all migrations, returning how many were popped. -/
def PopAll (o : SQLOracle δ) (s : DBState δ) : (Nat × Option MErr) × DBState δ :=
  popLoop o s 0

/-- `PopUntil` — pop until the latest migration has the given name. -/
def PopUntil (o : SQLOracle δ) (name : String) (s : DBState δ) :
    Except MErr Unit × DBState δ :=
  match Latest s with
  | .error e => (.error e, s)
  | .ok mig =>
    if mig.Name = name then (.ok (), s)
    else
      match h : Pop o s with
      | (.ok _, s1) => PopUntil o name s1
      | (.error e, s1) => (.error e, s1)
termination_by s.rows.length
decreasing_by exact pop_ok_length h


theorem push_absent {o : SQLOracle δ} {now : Nat} {s : DBState δ} {mig : Migration}
    (hn : mig.Name ≠ "") (hu : mig.Up ≠ "")
    (habs : (s.rows.any fun r => r.Name == mig.Name) = false) :
    Push o now s mig = pushTx o now s mig := by
  unfold Push
  rw [if_neg hn, if_neg hu]
  simp only [habs, Bool.and_false, Bool.false_eq_true, if_false]
  rw [if_neg fun hh => hn hh.symm]

theorem push_present {o : SQLOracle δ} {now : Nat} {s : DBState δ} {mig : Migration}
    (hn : mig.Name ≠ "") (hu : mig.Up ≠ "")
    (hsel : o.selectNameOk = true)
    (hpres : (s.rows.any fun r => r.Name == mig.Name) = true) :
    Push o now s mig = (.ok (), s) := by
  unfold Push
  rw [if_neg hn, if_neg hu]
  simp only [hsel, hpres, Bool.and_self, if_true]

theorem pushTx_ok {o : SQLOracle δ} {now : Nat} {s s1 : DBState δ}
    {mig : Migration} {u : Unit} (h : pushTx o now s mig = (.ok u, s1)) :
    ∃ t, o.exec s.target mig.Up = some t ∧
      s1 = { rows := markMigrated now mig.Name (s.rows ++ [mkPendingRow s mig]),
             nextId := s.nextId + 1, nextPos := s.nextPos + 1, target := t } := by
  unfold pushTx at h
  split at h
  · simp at h
  · split at h
    · simp at h
    · split at h
      · simp at h
      · next t ht =>
        split at h
        · simp at h
        · split at h
          · simp at h
          · simp at h
            exact ⟨t, ht, h.symm⟩

theorem pushTx_error_state {o : SQLOracle δ} {now : Nat} {s s1 : DBState δ}
    {mig : Migration} {e : MErr} (h : pushTx o now s mig = (.error e, s1)) :
    s1 = s := by
  unfold pushTx at h
  split at h
  · exact (Prod.mk.injEq _ _ _ _ ▸ h).2.symm
  · split at h
    · exact (Prod.mk.injEq _ _ _ _ ▸ h).2.symm
    · split at h
      · exact (Prod.mk.injEq _ _ _ _ ▸ h).2.symm
      · split at h
        · exact (Prod.mk.injEq _ _ _ _ ▸ h).2.symm
        · split at h
          · exact (Prod.mk.injEq _ _ _ _ ▸ h).2.symm
          · simp at h

theorem push_eq (o : SQLOracle δ) (now : Nat) (s : DBState δ) (mig : Migration) :
    Push o now s mig =
      if mig.Name = "" then (.error .validationName, s)
      else if mig.Up = "" then (.error .validationUp, s)
      else if o.selectNameOk && (s.rows.any fun r => r.Name == mig.Name) then (.ok (), s)
      else pushTx o now s mig := by
  unfold Push
  by_cases h1 : mig.Name = ""
  · simp [h1]
  · by_cases h2 : mig.Up = ""
    · simp [h1, h2]
    · by_cases h3 : (o.selectNameOk && (s.rows.any fun r => r.Name == mig.Name)) = true
      · simp [h1, h2, h3]
      · rw [Bool.not_eq_true] at h3
        simp [h1, h2, h3, Ne.symm h1]

theorem push_error_state {o : SQLOracle δ} {now : Nat} {s s1 : DBState δ}
    {mig : Migration} {e : MErr} (h : Push o now s mig = (.error e, s1)) :
    s1 = s := by
  rw [push_eq] at h
  split at h
  · exact (Prod.mk.injEq _ _ _ _ ▸ h).2.symm
  · split at h
    · exact (Prod.mk.injEq _ _ _ _ ▸ h).2.symm
    · split at h
      · simp at h
      · exact pushTx_error_state h

theorem pushTx_success {o : SQLOracle δ} {now : Nat} {s : DBState δ} {mig : Migration}
    (hb : o.beginOk = true) (hi : o.insertOk = true)
    (habs : (s.rows.any fun r => r.Name == mig.Name) = false)
    {t : δ} (ht : o.exec s.target mig.Up = some t)
    (hupd : o.updateOk = true) (hcom : o.commitOk = true) :
    pushTx o now s mig =
      (.ok (), { rows := markMigrated now mig.Name (s.rows ++ [mkPendingRow s mig]),
                 nextId := s.nextId + 1, nextPos := s.nextPos + 1, target := t }) := by
  unfold pushTx
  rw [hb, hi, habs, ht, hupd, hcom]
  simp

theorem markMigrated_any (now : Nat) (n m : String) (rows : List Migration) :
    ((markMigrated now n rows).any fun r => r.Name == m)
      = (rows.any fun r => r.Name == m) := by
  induction rows with
  | nil => rfl
  | cons a as ih =>
    simp only [markMigrated, List.map_cons, List.any_cons] at *
    rw [ih]
    by_cases h : a.Name = n <;> simp [h]

theorem markMigrated_filter_length (now : Nat) (n m : String) (rows : List Migration) :
    ((markMigrated now n rows).filter fun r => r.Name == m).length
      = (rows.filter fun r => r.Name == m).length := by
  induction rows with
  | nil => rfl
  | cons a as ih =>
    simp only [markMigrated, List.map_cons, List.filter_cons] at *
    by_cases h : a.Name = n
    · by_cases h2 : a.Name = m
      · have hnm : n = m := h.symm.trans h2
        subst hnm
        simp [h, ih]
      · have hnm : n ≠ m := fun hh => h2 (h.trans hh)
        simp [h, h2, hnm, ih]
    · cases hm : (a.Name == m) <;> simp [h, hm, ih]

theorem filter_length_zero_of_any_false {rows : List Migration} {m : String}
    (h : (rows.any fun r => r.Name == m) = false) :
    (rows.filter fun r => r.Name == m).length = 0 := by
  induction rows with
  | nil => rfl
  | cons a as ih =>
    simp only [List.any_cons, Bool.or_eq_false_iff] at h
    rw [List.filter_cons, h.1]
    exact ih h.2

theorem pop_empty {o : SQLOracle δ} {s : DBState δ} (hb : o.beginOk = true)
    (hrows : s.rows = []) : Pop o s = (.error .noMigration, s) := by
  unfold Pop
  rw [hb]
  simp [hrows, latestRow]

theorem pop_success {o : SQLOracle δ} {s : DBState δ} {r : Migration} {t : δ}
    (hb : o.beginOk = true) (hr : latestRow s.rows = some r)
    (ht : o.exec s.target r.Down = some t)
    (hdel : o.deleteOk = true) (hcom : o.commitOk = true) :
    Pop o s = (.ok (), { s with rows := s.rows.filter fun x => x.Name != r.Name,
                                target := t }) := by
  unfold Pop
  rw [hb, hr]
  simp [ht, hdel, hcom]

theorem pop_ok_total {o : SQLOracle δ} {f : δ → String → δ} {s : DBState δ}
    (hb : o.beginOk = true) (hdel : o.deleteOk = true) (hcom : o.commitOk = true)
    (hexec : ∀ d q, o.exec d q = some (f d q)) (hne : s.rows ≠ []) :
    ∃ s1, Pop o s = (.ok (), s1) ∧ s1.rows.length < s.rows.length := by
  obtain ⟨r, hr⟩ : ∃ r, latestRow s.rows = some r := by
    cases hl : latestRow s.rows with
    | none => exact absurd (latestRow_eq_none.mp hl) hne
    | some r => exact ⟨r, rfl⟩
  refine ⟨_, pop_success hb hr (hexec _ _) hdel hcom, ?_⟩
  exact filter_length_lt (latestRow_mem hr) (by simp)

theorem popLoop_empty {o : SQLOracle δ} {s : DBState δ} (hb : o.beginOk = true)
    (hrows : s.rows = []) (n : Nat) :
    popLoop o s n = if n = 0 then ((0, some .noMigration), s) else ((n, none), s) := by
  have hpop : Pop o s = (.error .noMigration, s) := pop_empty hb hrows
  rw [popLoop]
  split <;> simp_all

theorem popLoop_step {o : SQLOracle δ} {s s1 : DBState δ} {u : Unit}
    (hpop : Pop o s = (.ok u, s1)) (n : Nat) :
    popLoop o s n = popLoop o s1 (n + 1) := by
  rw [popLoop]
  split <;> simp_all

theorem popLoop_drain {o : SQLOracle δ} {f : δ → String → δ}
    (hb : o.beginOk = true) (hdel : o.deleteOk = true) (hcom : o.commitOk = true)
    (hexec : ∀ d q, o.exec d q = some (f d q)) :
    ∀ N (s : DBState δ), s.rows.length ≤ N → s.rows ≠ [] → ∀ n,
      ∃ k s1, popLoop o s n = ((n + k, none), s1) ∧ 1 ≤ k ∧ s1.rows = [] := by
  intro N
  induction N with
  | zero =>
    intro s hlen hne _
    exact absurd (List.eq_nil_of_length_eq_zero (Nat.le_zero.mp hlen)) hne
  | succ N ih =>
    intro s hlen hne n
    obtain ⟨s1, hpop, hlt⟩ := pop_ok_total hb hdel hcom hexec hne
    have hstep := popLoop_step hpop n
    by_cases h1 : s1.rows = []
    · rw [hstep, popLoop_empty hb h1 (n + 1)]
      exact ⟨1, s1, by simp, le_refl 1, h1⟩
    · obtain ⟨k, s2, hk, hk1, hk2⟩ := ih s1 (by omega) h1 (n + 1)
      have harith : n + 1 + k = n + (k + 1) := by omega
      exact ⟨k + 1, s2, by rw [hstep, hk, harith], by omega, hk2⟩

theorem latest_of_latestRow {s : DBState δ} {r : Migration}
    (hr : latestRow s.rows = some r) : Latest s = .ok r := by
  unfold Latest
  rw [hr]

theorem popUntil_stop {o : SQLOracle δ} {nm : String} {s : DBState δ} {r : Migration}
    (hr : latestRow s.rows = some r) (hname : r.Name = nm) :
    PopUntil o nm s = (.ok (), s) := by
  rw [PopUntil, latest_of_latestRow hr]
  simp [hname]

theorem popUntil_empty {o : SQLOracle δ} {nm : String} {s : DBState δ}
    (hrows : s.rows = []) : PopUntil o nm s = (.error .errNoRows, s) := by
  have hl : Latest s = .error .errNoRows := by
    unfold Latest
    rw [latestRow_eq_none.mpr hrows]
  rw [PopUntil, hl]

theorem popUntil_step {o : SQLOracle δ} {nm : String} {s s1 : DBState δ}
    {r : Migration} {u : Unit}
    (hr : latestRow s.rows = some r) (hname : r.Name ≠ nm)
    (hpop : Pop o s = (.ok u, s1)) :
    PopUntil o nm s = PopUntil o nm s1 := by
  rw [PopUntil, latest_of_latestRow hr]
  simp only [hname, if_false]
  split <;> simp_all

theorem popUntil_present {o : SQLOracle δ} {f : δ → String → δ} {nm : String}
    (hb : o.beginOk = true) (hdel : o.deleteOk = true) (hcom : o.commitOk = true)
    (hexec : ∀ d q, o.exec d q = some (f d q)) :
    ∀ N (s : DBState δ), s.rows.length ≤ N →
      (∃ x ∈ s.rows, x.Name = nm) →
      ∃ s1, PopUntil o nm s = (.ok (), s1) ∧
        ∃ r, latestRow s1.rows = some r ∧ r.Name = nm := by
  intro N
  induction N with
  | zero =>
    intro s hlen hx
    obtain ⟨x, hx1, _⟩ := hx
    rw [List.eq_nil_of_length_eq_zero (Nat.le_zero.mp hlen)] at hx1
    simp at hx1
  | succ N ih =>
    intro s hlen hx
    obtain ⟨x, hx1, hx2⟩ := hx
    obtain ⟨r, hr⟩ : ∃ r, latestRow s.rows = some r := by
      cases hl : latestRow s.rows with
      | none =>
        rw [latestRow_eq_none.mp hl] at hx1
        simp at hx1
      | some r => exact ⟨r, rfl⟩
    by_cases hname : r.Name = nm
    · exact ⟨s, popUntil_stop hr hname, r, hr, hname⟩
    · have hpop := pop_success hb hr (hexec _ _) hdel hcom
      have hstep := popUntil_step hr hname hpop
      have hxmem : x ∈ s.rows.filter fun y => y.Name != r.Name := by
        refine List.mem_filter.mpr ⟨hx1, ?_⟩
        simp only [bne_iff_ne, ne_eq]
        exact fun hh => hname (hh ▸ hx2)
      have hlt : (s.rows.filter fun y => y.Name != r.Name).length < s.rows.length :=
        filter_length_lt (latestRow_mem hr) (by simp)
      obtain ⟨s1, hs1, hres⟩ :=
        ih { s with rows := s.rows.filter fun y => y.Name != r.Name,
                    target := f s.target r.Down }
          (by show (s.rows.filter fun y => y.Name != r.Name).length ≤ N; omega)
          ⟨x, hxmem, hx2⟩
      exact ⟨s1, by rw [hstep]; exact hs1, hres⟩

theorem popUntil_absent {o : SQLOracle δ} {f : δ → String → δ} {nm : String}
    (hb : o.beginOk = true) (hdel : o.deleteOk = true) (hcom : o.commitOk = true)
    (hexec : ∀ d q, o.exec d q = some (f d q)) :
    ∀ N (s : DBState δ), s.rows.length ≤ N →
      (∀ x ∈ s.rows, x.Name ≠ nm) →
      ∃ s1, PopUntil o nm s = (.error .errNoRows, s1) ∧ s1.rows = [] := by
  intro N
  induction N with
  | zero =>
    intro s hlen _
    have hrows := List.eq_nil_of_length_eq_zero (Nat.le_zero.mp hlen)
    exact ⟨s, popUntil_empty hrows, hrows⟩
  | succ N ih =>
    intro s hlen habs
    by_cases hrows : s.rows = []
    · exact ⟨s, popUntil_empty hrows, hrows⟩
    · obtain ⟨r, hr⟩ : ∃ r, latestRow s.rows = some r := by
        cases hl : latestRow s.rows with
        | none => exact absurd (latestRow_eq_none.mp hl) hrows
        | some r => exact ⟨r, rfl⟩
      have hname : r.Name ≠ nm := habs r (latestRow_mem hr)
      have hpop := pop_success hb hr (hexec _ _) hdel hcom
      have hstep := popUntil_step hr hname hpop
      have hlt : (s.rows.filter fun y => y.Name != r.Name).length < s.rows.length :=
        filter_length_lt (latestRow_mem hr) (by simp)
      have habs1 : ∀ x ∈ s.rows.filter fun y => y.Name != r.Name, x.Name ≠ nm :=
        fun x hxf => habs x (List.mem_filter.mp hxf).1
      obtain ⟨s1, hs1, hres⟩ :=
        ih { s with rows := s.rows.filter fun y => y.Name != r.Name,
                    target := f s.target r.Down }
          (by show (s.rows.filter fun y => y.Name != r.Name).length ≤ N; omega)
          habs1
      exact ⟨s1, by rw [hstep]; exact hs1, hres⟩

/-- Concrete target-database model: a counter of executed statements. -/
def execCount : Nat → String → Nat := fun d _ => d + 1

/-- Concrete all-success oracle over the counting target database. -/
def okOracle : SQLOracle Nat :=
  { exec := fun d q => some (execCount d q), selectNameOk := true, beginOk := true,
    insertOk := true, updateOk := true, deleteOk := true, commitOk := true }

/-- Oracle whose duplicate-name pre-check query fails (discarded scan error). -/
def badScanOracle : SQLOracle Nat :=
  { okOracle with selectNameOk := false }

/-- A freshly created, empty ledger over the counting target database. -/
def emptyState : DBState Nat := { rows := [], nextId := 1, nextPos := 1, target := 0 }

/-- Concrete input migrations. -/
def migA : Migration :=
  { ID := 0, Name := "a", Description := "", Up := "ua", Down := "da",
    Position := 0, MigratedAt := none }

def migB : Migration :=
  { migA with Name := "b", Up := "ub", Down := "db" }

def migC : Migration :=
  { migA with Name := "c", Up := "uc", Down := "dc" }

def migNoName : Migration :=
  { migA with Name := "" }

def migNoUp : Migration :=
  { migA with Up := "" }

/-- The ledger row left by pushing `migA` into `emptyState` at time 5. -/
def rowA1 : Migration :=
  { ID := 1, Name := "a", Description := "", Up := "ua", Down := "da",
    Position := 1, MigratedAt := some 5 }

/-- A one-row ledger holding `rowA1`. -/
def oneState : DBState Nat := { rows := [rowA1], nextId := 2, nextPos := 2, target := 1 }

/-- **C5** (counterexample): the claim says `Latest` on an empty ledger
fails with the NoMigrationFound condition, the same condition `Pop`
returns on an empty ledger.  In the code `Latest` returns the scan's
`sql.ErrNoRows` unmapped, while `Pop` maps it to `ErrNoMigration`: the
two error values differ. -/
theorem claim5_latest_cex :
    emptyState.rows = []
    ∧ Latest emptyState = .error .errNoRows
    ∧ (Pop okOracle emptyState).1 = .error .noMigration
    ∧ MErr.errNoRows ≠ MErr.noMigration :=
  ⟨rfl, rfl, rfl, by decide⟩

/-- **C5** (amended): `Latest` on an empty ledger fails with the driver's
no-rows error (`sql.ErrNoRows` surfaced unmapped), which is a different
error value from the `ErrNoMigration` that `Pop` returns on an empty
ledger; on a non-empty ledger it returns the single row with the highest
`Position`. -/
theorem claim5_latest (s : DBState δ) :
    (s.rows = [] →
      Latest s = .error .errNoRows
      ∧ Latest s ≠ .error .noMigration
      ∧ ∀ o : SQLOracle δ, o.beginOk = true → Pop o s = (.error .noMigration, s))
    ∧ (∀ r, latestRow s.rows = some r →
        Latest s = .ok r ∧ r ∈ s.rows ∧ ∀ x ∈ s.rows, x.Position ≤ r.Position) := by
  constructor
  · intro hrows
    have hl : Latest s = .error .errNoRows := by
      unfold Latest
      rw [latestRow_eq_none.mpr hrows]
    exact ⟨hl, by rw [hl]; simp, fun o hb => pop_empty hb hrows⟩
  · intro r hr
    exact ⟨latest_of_latestRow hr, latestRow_mem hr, latestRow_max hr⟩

/-- Witness for the amended C5 at concrete inputs. -/
theorem claim5_latest_witness :
    emptyState.rows = []
    ∧ Latest emptyState = .error .errNoRows
    ∧ latestRow oneState.rows = some rowA1
    ∧ Latest oneState = .ok rowA1 :=
  ⟨rfl, ((claim5_latest emptyState).1 rfl).1, rfl,
    ((claim5_latest oneState).2 rowA1 rfl).1⟩

/-- **C7**: `Push` of a migration with empty `Name` or empty `Up` fails
with the corresponding validation error before issuing any database
query: the state is returned unchanged and the result does not depend on
the SQL oracle or the timestamp at all. -/
theorem claim7_validation (o o2 : SQLOracle δ) (now now2 : Nat) (s : DBState δ)
    (mig : Migration) (h : mig.Name = "" ∨ mig.Up = "") :
    (Push o now s mig).2 = s
    ∧ (mig.Name = "" → Push o now s mig = (.error .validationName, s))
    ∧ (mig.Name ≠ "" → Push o now s mig = (.error .validationUp, s))
    ∧ Push o now s mig = Push o2 now2 s mig := by
  rcases h with h | h
  · refine ⟨?_, fun _ => ?_, fun hn => absurd h hn, ?_⟩ <;> simp [Push, h]
  · by_cases hn : mig.Name = ""
    · refine ⟨?_, fun _ => ?_, fun hn2 => absurd hn hn2, ?_⟩ <;> simp [Push, hn]
    · refine ⟨?_, fun he => absurd he hn, fun _ => ?_, ?_⟩ <;> simp [Push, hn, h]

/-- Witness for C7 at concrete inputs. -/
theorem claim7_validation_witness :
    (migNoName.Name = "" ∨ migNoName.Up = "")
    ∧ Push okOracle 5 emptyState migNoName = (.error .validationName, emptyState)
    ∧ (migNoUp.Name = "" ∨ migNoUp.Up = "")
    ∧ Push okOracle 5 emptyState migNoUp = (.error .validationUp, emptyState) :=
  ⟨Or.inl rfl,
    ((claim7_validation okOracle okOracle 5 5 emptyState migNoName (Or.inl rfl)).2.1 rfl),
    Or.inr rfl,
    ((claim7_validation okOracle okOracle 5 5 emptyState migNoUp (Or.inr rfl)).2.2.1
      (by decide))⟩

/-- **C9**: when the duplicate-name pre-check query fails, its scan error
is discarded: a valid migration is treated as not yet pushed and `Push`
proceeds into the insert/execute transaction (it equals the transaction
body) instead of reporting the pre-check failure. -/
theorem claim9_precheck_ignored (o : SQLOracle δ) (now : Nat) (s : DBState δ)
    (mig : Migration) (hn : mig.Name ≠ "") (hu : mig.Up ≠ "")
    (hsel : o.selectNameOk = false) :
    Push o now s mig = pushTx o now s mig := by
  rw [push_eq]
  rw [if_neg hn, if_neg hu, hsel]
  simp

/-- Witness for C9 at concrete inputs: even with the target row already
present, a failed pre-check makes `Push` run the transaction body. -/
theorem claim9_precheck_ignored_witness :
    migA.Name ≠ "" ∧ migA.Up ≠ "" ∧ badScanOracle.selectNameOk = false
    ∧ Push badScanOracle 5 oneState migA = pushTx badScanOracle 5 oneState migA :=
  ⟨by decide, by decide, rfl,
    claim9_precheck_ignored badScanOracle 5 oneState migA (by decide) (by decide) rfl⟩

/-- **C10**: `SetMigrationTable` and `SetSchema` with an empty string are
no-ops that still return the instance: the configured table and schema
names are never overwritten with an empty component. -/
theorem claim10_setters_empty_noop (m : Migra) :
    SetMigrationTable m "" = m
    ∧ SetSchema m "" = m
    ∧ (SetMigrationTable m "").tableName = m.tableName
    ∧ (SetSchema m "").schemaName = m.schemaName := by
  refine ⟨?_, ?_, ?_, ?_⟩ <;> simp [SetMigrationTable, SetSchema]

/-- Outcome contract of `Push` for a migration whose name is absent from
the ledger: success means the pending row was inserted, the `Up`
statement's effect applied and `MigratedAt` set, all committed together;
any error leaves the whole state unchanged (no ledger row for the
migration, target database untouched); the insert, Up-execution and
mark-migrated steps each surface their own error. -/
def PushAtomic (o : SQLOracle δ) (now : Nat) (s : DBState δ) (mig : Migration) : Prop :=
  ((Push o now s mig).1 = .ok () →
    ∃ t, o.exec s.target mig.Up = some t ∧
      (Push o now s mig).2 =
        { rows := markMigrated now mig.Name (s.rows ++ [mkPendingRow s mig]),
          nextId := s.nextId + 1, nextPos := s.nextPos + 1, target := t })
  ∧ (∀ e, (Push o now s mig).1 = .error e →
      (Push o now s mig).2 = s
      ∧ ((Push o now s mig).2.rows.any fun r => r.Name == mig.Name) = false
      ∧ (Push o now s mig).2.target = s.target)
  ∧ (o.beginOk = true →
      (o.insertOk = false → (Push o now s mig).1 = .error .insertFailed)
      ∧ (o.insertOk = true → o.exec s.target mig.Up = none →
          (Push o now s mig).1 = .error (.execFailed mig.Up))
      ∧ (o.insertOk = true → o.updateOk = false →
          ∀ t, o.exec s.target mig.Up = some t →
            (Push o now s mig).1 = .error .updateFailed))

/-- **C1**: for a migration whose name is not in the ledger, `Push` runs
insert + Up + mark-migrated in a single transaction: on success all three
effects are committed together, and if any step fails `Push` returns that
step's error and rolls the whole transaction back, leaving no ledger row
for the migration and the target database unchanged. -/
theorem claim1_push_atomic (o : SQLOracle δ) (now : Nat) (s : DBState δ)
    (mig : Migration) (hn : mig.Name ≠ "") (hu : mig.Up ≠ "")
    (habs : (s.rows.any fun r => r.Name == mig.Name) = false) :
    PushAtomic o now s mig := by
  have hpt : Push o now s mig = pushTx o now s mig := push_absent hn hu habs
  unfold PushAtomic
  rw [hpt]
  refine ⟨?_, ?_, ?_⟩
  · intro hok
    have hpair : pushTx o now s mig = (.ok (), (pushTx o now s mig).2) := by
      have := (Prod.mk.eta (p := pushTx o now s mig)).symm
      rw [hok] at this
      exact this
    obtain ⟨t, ht, hsnd⟩ := pushTx_ok hpair
    exact ⟨t, ht, hsnd⟩
  · intro e herr
    have hpair : pushTx o now s mig = (.error e, (pushTx o now s mig).2) := by
      have := (Prod.mk.eta (p := pushTx o now s mig)).symm
      rw [herr] at this
      exact this
    have hst := pushTx_error_state hpair
    exact ⟨hst, by rw [hst]; exact habs, by rw [hst]⟩
  · intro hb
    refine ⟨?_, ?_, ?_⟩
    · intro hi
      simp [pushTx, hb, hi]
    · intro hi hnone
      simp [pushTx, hb, hi, habs, hnone]
    · intro hi hupd t ht
      simp [pushTx, hb, hi, habs, ht, hupd]

/-- Witness for C1 at concrete inputs. -/
theorem claim1_push_atomic_witness :
    migA.Name ≠ "" ∧ migA.Up ≠ ""
    ∧ ((emptyState.rows.any fun r => r.Name == migA.Name) = false)
    ∧ PushAtomic okOracle 5 emptyState migA :=
  ⟨by decide, by decide, by decide,
    claim1_push_atomic okOracle 5 emptyState migA (by decide) (by decide) (by decide)⟩

/-- Idempotence contract of `Push`: a migration already in the ledger is
re-accepted as a success without touching anything, and after one fresh
successful push the ledger holds exactly one row with the migration's
name and a second push of the same migration is a no-op success. -/
def PushIdem (o : SQLOracle δ) (now now2 : Nat) (s : DBState δ) (mig : Migration) : Prop :=
  ((s.rows.any fun r => r.Name == mig.Name) = true → Push o now s mig = (.ok (), s))
  ∧ ((s.rows.any fun r => r.Name == mig.Name) = false →
      ∀ s1, Push o now s mig = (.ok (), s1) →
        Push o now2 s1 mig = (.ok (), s1)
        ∧ (s1.rows.filter fun r => r.Name == mig.Name).length = 1)

/-- **C2**: with the pre-check query answering, pushing a migration whose
name already has a ledger row returns success leaving the whole state
untouched, so pushing the same named migration twice leaves exactly one
ledger row and runs its Up statement exactly once. -/
theorem claim2_push_idempotent (o : SQLOracle δ) (now now2 : Nat) (s : DBState δ)
    (mig : Migration) (hn : mig.Name ≠ "") (hu : mig.Up ≠ "")
    (hsel : o.selectNameOk = true) :
    PushIdem o now now2 s mig := by
  constructor
  · intro hpres
    exact push_present hn hu hsel hpres
  · intro habs s1 hok
    rw [push_absent hn hu habs] at hok
    obtain ⟨t, ht, hs1⟩ := pushTx_ok hok
    have hrows : s1.rows = markMigrated now mig.Name (s.rows ++ [mkPendingRow s mig]) := by
      rw [hs1]
    have hpres1 : (s1.rows.any fun r => r.Name == mig.Name) = true := by
      rw [hrows, markMigrated_any]
      simp [mkPendingRow]
    refine ⟨push_present hn hu hsel hpres1, ?_⟩
    rw [hrows, markMigrated_filter_length, List.filter_append]
    have h0 : (s.rows.filter fun r => r.Name == mig.Name).length = 0 :=
      filter_length_zero_of_any_false habs
    simp [mkPendingRow, h0]

/-- Witness for C2 at concrete inputs. -/
theorem claim2_push_idempotent_witness :
    migA.Name ≠ "" ∧ migA.Up ≠ "" ∧ okOracle.selectNameOk = true
    ∧ PushIdem okOracle 5 6 emptyState migA :=
  ⟨by decide, by decide, rfl,
    claim2_push_idempotent okOracle 5 6 emptyState migA (by decide) (by decide) rfl⟩

theorem pushMany_nil {o : SQLOracle δ} {now : Nat} {s : DBState δ} :
    PushMany o now s [] = (none, s) := rfl

theorem pushMany_cons_ok {o : SQLOracle δ} {now : Nat} {s s1 : DBState δ}
    {mig : Migration} (h : Push o now s mig = (.ok (), s1)) (rest : List Migration) :
    PushMany o now s (mig :: rest) = PushMany o now s1 rest := by
  conv_lhs => rw [PushMany]
  rw [h]

theorem pushMany_cons_err {o : SQLOracle δ} {now : Nat} {s s1 : DBState δ}
    {mig : Migration} {e : MErr} (h : Push o now s mig = (.error e, s1))
    (rest : List Migration) :
    PushMany o now s (mig :: rest) = (some e, s1) := by
  unfold PushMany
  rw [h]

/-- **C8**: `PushMany` pushes the migrations one by one, in order, via
`Push`; on the first failing `Push` it stops with that error, leaving the
state produced by the successful pushes before it (the failing `Push`
itself rolled back, so the state equals the one after the successful
prefix). -/
theorem claim8_pushmany_failfast (o : SQLOracle δ) (now : Nat) :
    (∀ s : DBState δ, PushMany o now s [] = (none, s))
    ∧ (∀ (s s1 : DBState δ) (mig : Migration) (rest : List Migration),
        Push o now s mig = (.ok (), s1) →
        PushMany o now s (mig :: rest) = PushMany o now s1 rest)
    ∧ (∀ (s s1 : DBState δ) (mig : Migration) (rest : List Migration) (e : MErr),
        Push o now s mig = (.error e, s1) →
        PushMany o now s (mig :: rest) = (some e, s1) ∧ s1 = s)
    ∧ (∀ (ms : List Migration) (s s1 : DBState δ) (e : MErr),
        PushMany o now s ms = (some e, s1) →
        ∃ i, ∃ hi : i < ms.length,
          (PushMany o now s (List.take i ms)).1 = none
          ∧ Push o now (PushMany o now s (List.take i ms)).2 (ms.get ⟨i, hi⟩)
              = (.error e, s1)
          ∧ s1 = (PushMany o now s (List.take i ms)).2) := by
  refine ⟨fun _ => rfl, fun s s1 mig rest h => pushMany_cons_ok h rest,
    fun s s1 mig rest e h => ⟨pushMany_cons_err h rest, push_error_state h⟩, ?_⟩
  intro ms
  induction ms with
  | nil =>
    intro s s1 e h
    rw [pushMany_nil] at h
    simp at h
  | cons mig rest ih =>
    intro s s1 e h
    cases hp : Push o now s mig with
    | mk fst snd =>
      cases fst with
      | ok u =>
        have hp' : Push o now s mig = (.ok (), snd) := by
          rw [hp]
        rw [pushMany_cons_ok hp' rest] at h
        obtain ⟨i, hi, h1, h2, h3⟩ := ih snd s1 e h
        have htake : List.take (i + 1) (mig :: rest) = mig :: List.take i rest := rfl
        have hpm : PushMany o now s (List.take (i + 1) (mig :: rest))
            = PushMany o now snd (List.take i rest) := by
          rw [htake]
          exact pushMany_cons_ok hp' _
        refine ⟨i + 1, by simpa using hi, ?_, ?_, ?_⟩
        · rw [hpm]; exact h1
        · rw [hpm]; exact h2
        · rw [hpm]; exact h3
      | error e' =>
        have hp' : Push o now s mig = (.error e', snd) := hp
        rw [pushMany_cons_err hp' rest] at h
        have he : e' = e := by
          have := congrArg Prod.fst h
          simpa using this
        have hs : snd = s1 := by
          have := congrArg Prod.snd h
          simpa using this
        subst he
        subst hs
        refine ⟨0, by simp, rfl, ?_, ?_⟩
        · exact hp'
        · exact push_error_state hp'

/-- Witness for C8 at concrete inputs. -/
theorem claim8_pushmany_failfast_witness :
    PushMany okOracle 5 emptyState [] = (none, emptyState)
    ∧ Push badScanOracle 5 oneState migA
        = (.error .insertFailed, oneState)
    ∧ PushMany badScanOracle 5 oneState [migA, migB]
        = (some .insertFailed, oneState) := by
  have hp : Push badScanOracle 5 oneState migA = (.error .insertFailed, oneState) := rfl
  exact ⟨(claim8_pushmany_failfast okOracle 5).1 emptyState, hp,
    ((claim8_pushmany_failfast badScanOracle 5).2.2.1 oneState oneState migA [migB]
      MErr.insertFailed hp).1⟩

/-- **C4**: `PopAll` pops until `Pop` fails with `ErrNoMigration`; when
the ledger is already empty the very first `Pop` fails that way and
`PopAll` returns the `ErrNoMigration` error with count 0, and when the
ledger is non-empty it returns the count of migrations popped (at least
one) with no error, having emptied the ledger. -/
theorem claim4_popall (o : SQLOracle δ) (f : δ → String → δ) (s : DBState δ)
    (hb : o.beginOk = true) (hdel : o.deleteOk = true) (hcom : o.commitOk = true)
    (hexec : ∀ d q, o.exec d q = some (f d q)) :
    (s.rows = [] → PopAll o s = ((0, some .noMigration), s))
    ∧ (s.rows ≠ [] → ∃ k s1, PopAll o s = ((k, none), s1) ∧ 1 ≤ k ∧ s1.rows = []) := by
  constructor
  · intro hrows
    unfold PopAll
    rw [popLoop_empty hb hrows 0]
    simp
  · intro hne
    obtain ⟨k, s1, hk, h1, h2⟩ :=
      popLoop_drain hb hdel hcom hexec s.rows.length s (le_refl _) hne 0
    refine ⟨k, s1, ?_, h1, h2⟩
    unfold PopAll
    rw [hk]
    simp

/-- Witness for C4 at concrete inputs. -/
theorem claim4_popall_witness :
    okOracle.beginOk = true ∧ okOracle.deleteOk = true ∧ okOracle.commitOk = true
    ∧ (∀ d q, okOracle.exec d q = some (execCount d q))
    ∧ emptyState.rows = []
    ∧ PopAll okOracle emptyState = ((0, some .noMigration), emptyState)
    ∧ oneState.rows ≠ []
    ∧ ∃ k s1, PopAll okOracle oneState = ((k, none), s1) ∧ 1 ≤ k ∧ s1.rows = [] :=
  ⟨rfl, rfl, rfl, fun d q => rfl, rfl,
    (claim4_popall okOracle execCount emptyState rfl rfl rfl fun d q => rfl).1 rfl,
    by decide,
    (claim4_popall okOracle execCount oneState rfl rfl rfl fun d q => rfl).2
      (by decide)⟩

/-- **C6** (counterexample): the claim says that when the target name is
never reached, `PopUntil` empties the ledger and then fails with
NoMigrationFound.  It does empty the ledger, but the final error comes
from `Latest`, which surfaces the driver's `sql.ErrNoRows` unmapped, not
`ErrNoMigration`. -/
theorem claim6_popuntil_cex :
    (∀ x ∈ oneState.rows, x.Name ≠ "b")
    ∧ PopUntil okOracle "b" oneState
        = (.error .errNoRows, { rows := [], nextId := 2, nextPos := 2, target := 2 })
    ∧ MErr.errNoRows ≠ MErr.noMigration := by
  refine ⟨by decide, ?_, by decide⟩
  have hr : latestRow oneState.rows = some rowA1 := rfl
  have hname : rowA1.Name ≠ "b" := by decide
  have hpop : Pop okOracle oneState
      = (.ok (), { rows := [], nextId := 2, nextPos := 2, target := 2 }) := by
    have := pop_success (o := okOracle) (s := oneState) (r := rowA1) (t := 2)
      rfl hr rfl rfl rfl
    simpa using this
  rw [popUntil_step hr hname hpop, popUntil_empty rfl]

/-- Behavioural contract of `PopUntil`: it stops successfully as soon as
the latest row's name equals the target, leaving the ledger untouched
from that point (so the target row itself stays applied and is the
latest); if the target name is present it succeeds with a target-named
row as the new latest; if the target name is nowhere in the ledger it
pops everything and then fails with the unmapped driver no-rows error. -/
def PopUntilSpec (o : SQLOracle δ) (nm : String) (s : DBState δ) : Prop :=
  (∀ r, latestRow s.rows = some r → r.Name = nm → PopUntil o nm s = (.ok (), s))
  ∧ ((∃ x ∈ s.rows, x.Name = nm) →
      ∃ s1, PopUntil o nm s = (.ok (), s1)
        ∧ ∃ r, latestRow s1.rows = some r ∧ r.Name = nm)
  ∧ ((∀ x ∈ s.rows, x.Name ≠ nm) →
      ∃ s1, PopUntil o nm s = (.error .errNoRows, s1) ∧ s1.rows = [])

/-- **C6** (amended): `PopUntil(name)` repeatedly fetches the latest
migration and stops successfully as soon as its name equals the target,
leaving the target migration applied and present; if the target name is
never reached it pops the ledger down to empty and then fails with the
driver's no-rows error surfaced by `Latest` (not with `ErrNoMigration`). -/
theorem claim6_popuntil (o : SQLOracle δ) (f : δ → String → δ) (nm : String)
    (s : DBState δ) (hb : o.beginOk = true) (hdel : o.deleteOk = true)
    (hcom : o.commitOk = true) (hexec : ∀ d q, o.exec d q = some (f d q)) :
    PopUntilSpec o nm s := by
  refine ⟨?_, ?_, ?_⟩
  · intro r hr hname
    exact popUntil_stop hr hname
  · intro hx
    exact popUntil_present hb hdel hcom hexec s.rows.length s (le_refl _) hx
  · intro habs
    exact popUntil_absent hb hdel hcom hexec s.rows.length s (le_refl _) habs

/-- Witness for the amended C6 at concrete inputs. -/
theorem claim6_popuntil_witness :
    okOracle.beginOk = true ∧ okOracle.deleteOk = true ∧ okOracle.commitOk = true
    ∧ (∀ d q, okOracle.exec d q = some (execCount d q))
    ∧ PopUntilSpec okOracle "a" oneState :=
  ⟨rfl, rfl, rfl, fun d q => rfl,
    claim6_popuntil okOracle execCount "a" oneState rfl rfl rfl fun d q => rfl⟩

/-- Concrete stack scenario: from an empty ledger (fresh sequences, target
database `t0`), pushing `A`, `B`, `C` in that order succeeds, and three
successive `Pop` calls revert `C`, then `B`, then `A` (each executing that
migration's `Down` statement and deleting its row), after which a fourth
`Pop` fails with `ErrNoMigration`. -/
def StackOrder (o : SQLOracle δ) (f : δ → String → δ) (now : Nat) (t0 : δ)
    (A B C : Migration) : Prop :=
  ∃ s1 s2 s3 s4 s5 s6 : DBState δ,
    Push o now { rows := [], nextId := 1, nextPos := 1, target := t0 } A = (.ok (), s1)
    ∧ Push o now s1 B = (.ok (), s2)
    ∧ Push o now s2 C = (.ok (), s3)
    ∧ Pop o s3 = (.ok (), s4)
    ∧ s4.rows.map Migration.Name = [A.Name, B.Name]
    ∧ s4.target = f s3.target C.Down
    ∧ Pop o s4 = (.ok (), s5)
    ∧ s5.rows.map Migration.Name = [A.Name]
    ∧ s5.target = f s4.target B.Down
    ∧ Pop o s5 = (.ok (), s6)
    ∧ s6.rows = []
    ∧ s6.target = f s5.target A.Down
    ∧ Pop o s6 = (.error .noMigration, s6)

/-- **C3**: on a non-empty ledger `Pop` targets the row of maximum
`Position`, executes its `Down` statement and deletes the row by name in
one transaction (any error leaves the state unchanged); on an empty
ledger it fails with `ErrNoMigration` changing nothing; consequently
pushing `A`, `B`, `C` in order and popping reverts `C`, then `B`, then
`A`. -/
theorem claim3_pop_stack (o : SQLOracle δ) (f : δ → String → δ) (now : Nat) (t0 : δ)
    (A B C : Migration)
    (hexec : ∀ d q, o.exec d q = some (f d q))
    (hb : o.beginOk = true) (hins : o.insertOk = true)
    (hupd : o.updateOk = true) (hdel : o.deleteOk = true) (hcom : o.commitOk = true)
    (hA : A.Name ≠ "") (hB : B.Name ≠ "") (hC : C.Name ≠ "")
    (hAu : A.Up ≠ "") (hBu : B.Up ≠ "") (hCu : C.Up ≠ "")
    (hAB : A.Name ≠ B.Name) (hAC : A.Name ≠ C.Name) (hBC : B.Name ≠ C.Name) :
    (∀ s : DBState δ, s.rows = [] → Pop o s = (.error .noMigration, s))
    ∧ (∀ (s s1 : DBState δ) (e : MErr), Pop o s = (.error e, s1) → s1 = s)
    ∧ (∀ (s : DBState δ) (r : Migration), latestRow s.rows = some r →
        (r ∈ s.rows ∧ ∀ x ∈ s.rows, x.Position ≤ r.Position)
        ∧ Pop o s = (.ok (), { s with rows := s.rows.filter fun x => x.Name != r.Name,
                                      target := f s.target r.Down }))
    ∧ StackOrder o f now t0 A B C := by
  refine ⟨fun s hrows => pop_empty hb hrows,
    fun s s1 e h => pop_error_state h,
    fun s r hr => ⟨⟨latestRow_mem hr, latestRow_max hr⟩,
      pop_success hb hr (hexec _ _) hdel hcom⟩, ?_⟩
  refine ⟨⟨[⟨1, A.Name, A.Description, A.Up, A.Down, 1, some now⟩], 2, 2, f t0 A.Up⟩,
    ⟨[⟨1, A.Name, A.Description, A.Up, A.Down, 1, some now⟩,
      ⟨2, B.Name, B.Description, B.Up, B.Down, 2, some now⟩], 3, 3, f (f t0 A.Up) B.Up⟩,
    ⟨[⟨1, A.Name, A.Description, A.Up, A.Down, 1, some now⟩,
      ⟨2, B.Name, B.Description, B.Up, B.Down, 2, some now⟩,
      ⟨3, C.Name, C.Description, C.Up, C.Down, 3, some now⟩], 4, 4,
      f (f (f t0 A.Up) B.Up) C.Up⟩,
    ⟨[⟨1, A.Name, A.Description, A.Up, A.Down, 1, some now⟩,
      ⟨2, B.Name, B.Description, B.Up, B.Down, 2, some now⟩], 4, 4,
      f (f (f (f t0 A.Up) B.Up) C.Up) C.Down⟩,
    ⟨[⟨1, A.Name, A.Description, A.Up, A.Down, 1, some now⟩], 4, 4,
      f (f (f (f (f t0 A.Up) B.Up) C.Up) C.Down) B.Down⟩,
    ⟨[], 4, 4, f (f (f (f (f (f t0 A.Up) B.Up) C.Up) C.Down) B.Down) A.Down⟩,
    ?_, ?_, ?_, ?_, ?_, ?_, ?_, ?_, ?_, ?_, ?_, ?_, ?_⟩
  · rw [push_absent hA hAu (by simp),
      pushTx_success hb hins (by simp) (hexec _ _) hupd hcom]
    simp [markMigrated, mkPendingRow]
  · rw [push_absent hB hBu (by simp [hAB]),
      pushTx_success hb hins (by simp [hAB]) (hexec _ _) hupd hcom]
    simp [markMigrated, mkPendingRow, hAB]
  · rw [push_absent hC hCu (by simp [hAC, hBC]),
      pushTx_success hb hins (by simp [hAC, hBC]) (hexec _ _) hupd hcom]
    simp [markMigrated, mkPendingRow, hAC, hBC]
  · have hlr : latestRow
        [⟨1, A.Name, A.Description, A.Up, A.Down, 1, some now⟩,
         ⟨2, B.Name, B.Description, B.Up, B.Down, 2, some now⟩,
         ⟨3, C.Name, C.Description, C.Up, C.Down, 3, some now⟩]
        = some ⟨3, C.Name, C.Description, C.Up, C.Down, 3, some now⟩ := by
      simp [latestRow]
    rw [pop_success hb hlr (hexec _ _) hdel hcom]
    simp [List.filter_cons, bne_iff_ne, hAC, hBC]
  · simp
  · rfl
  · have hlr : latestRow
        [⟨1, A.Name, A.Description, A.Up, A.Down, 1, some now⟩,
         ⟨2, B.Name, B.Description, B.Up, B.Down, 2, some now⟩]
        = some ⟨2, B.Name, B.Description, B.Up, B.Down, 2, some now⟩ := by
      simp [latestRow]
    rw [pop_success hb hlr (hexec _ _) hdel hcom]
    simp [List.filter_cons, bne_iff_ne, hAB]
  · simp
  · rfl
  · have hlr : latestRow
        [⟨1, A.Name, A.Description, A.Up, A.Down, 1, some now⟩]
        = some ⟨1, A.Name, A.Description, A.Up, A.Down, 1, some now⟩ := by
      simp [latestRow]
    rw [pop_success hb hlr (hexec _ _) hdel hcom]
    simp [List.filter_cons]
  · rfl
  · rfl
  · exact pop_empty hb rfl

/-- Witness for C3 at concrete inputs. -/
theorem claim3_pop_stack_witness :
    (∀ d q, okOracle.exec d q = some (execCount d q))
    ∧ migA.Name ≠ "" ∧ migB.Name ≠ "" ∧ migC.Name ≠ ""
    ∧ migA.Name ≠ migB.Name ∧ migA.Name ≠ migC.Name ∧ migB.Name ≠ migC.Name
    ∧ StackOrder okOracle execCount 5 0 migA migB migC :=
  ⟨fun d q => rfl, by decide, by decide, by decide, by decide, by decide, by decide,
    (claim3_pop_stack okOracle execCount 5 0 migA migB migC (fun d q => rfl)
      rfl rfl rfl rfl rfl (by decide) (by decide) (by decide) (by decide) (by decide)
      (by decide) (by decide) (by decide) (by decide)).2.2.2⟩
